import Mathlib

/-!
Verification of the index-server ranking core
(src/index_server/index/api/main.py) against its specification.

Python values are modelled as follows: strings are lists of characters,
ints are ℤ, floats are ℚ computed exactly, except that the single square
root appearing in a score (the query-vector norm) is kept symbolic: a
score is stored as the exact pair (pr_part, tfidf_part) whose real value
is pr_part + tfidf_part / sqrt(S) with S the squared query norm.  A
Python function that can raise returns an Option, none modelling the
exception.  A Python set of ints is represented canonically by the
ascending list of its distinct elements; the unspecified iteration order
of `for docid in candidate_docs` is an explicit parameter `iter`
producing some enumeration (permutation) of that list.
-/

namespace IndexServer

/-- Python strings are modelled as their character lists. -/
abbrev PyStr := List Char

/-- One parsed posting of an index line (main.py lines 49-53): document id,
term frequency of the term in that document, and the document's precomputed
tf-idf vector norm. -/
structure Posting where
  docid : ℤ
  term_freq : ℤ
  norm_factor : ℚ
deriving DecidableEq

/-- One value of the inverted_index dict (main.py lines 58-61). -/
structure TermEntry where
  idf : ℚ
  docs : List Posting
deriving DecidableEq

/-- The inverted_index dict: term to entry; none models a missing key. -/
abbrev InvIndex := PyStr → Option TermEntry

/-- The pagerank dict: docid to score; none models a missing key. -/
abbrev PagerankTab := ℤ → Option ℚ

/-- Outcome of load_index on one line of the index file: skipped for a line
with fewer than three whitespace tokens (main.py lines 35-36), failed when
int() or float() raises ValueError, stored otherwise. -/
inductive LineResult where
  | skipped
  | failed
  | stored (term : PyStr) (entry : TermEntry)
deriving DecidableEq

/-- While loop of main.py lines 43-56: the tokens after term and idf are
parsed in groups of three; an incomplete trailing group hits the break and
is dropped without being parsed.  pInt and pFloat model Python int() and
float(), none meaning ValueError, which propagates. -/
def parse_doc_entries (pInt : PyStr → Option ℤ) (pFloat : PyStr → Option ℚ) :
    List PyStr → Option (List Posting)
  | t1 :: t2 :: t3 :: rest => do
    let d ← pInt t1
    let tf ← pInt t2
    let nf ← pFloat t3
    let tail ← parse_doc_entries pInt pFloat rest
    pure (⟨d, tf, nf⟩ :: tail)
  | _ => some []

/-- Body of the load_index loop (main.py lines 33-61) for a single line,
already split into whitespace tokens by line.strip().split().  The idf
token is converted by float() before the document groups are parsed. -/
def load_index_line (pInt : PyStr → Option ℤ) (pFloat : PyStr → Option ℚ) :
    List PyStr → LineResult
  | term :: idf_tok :: rest =>
    if rest = [] then .skipped
    else
      match pFloat idf_tok, parse_doc_entries pInt pFloat rest with
      | some idf, some doc_entries => .stored term ⟨idf, doc_entries⟩
      | _, _ => .failed
  | _ => .skipped

/-- Characters kept by re.sub applied in main.py line 67: the class
consists of ASCII letters, ASCII digits and the space. -/
def keepChar (c : Char) : Bool :=
  ('a' ≤ c && c ≤ 'z') || ('A' ≤ c && c ≤ 'Z') || ('0' ≤ c && c ≤ '9') || c == ' '

/-- Python str.split() with no argument: split on whitespace runs and drop
empty pieces; after keepChar filtering the only whitespace left is ' '. -/
def pySplit (cs : PyStr) : List PyStr :=
  (cs.splitOn ' ').filter (fun w => !w.isEmpty)

/-- Main.py lines 67-71: remove non-alphanumerics, casefold and split.  On
the ASCII characters that survive keepChar, str.casefold coincides with
lowercasing, modelled characterwise by Char.toLower. -/
def query_tokens (query_string : PyStr) : List PyStr :=
  pySplit ((query_string.filter keepChar).map Char.toLower)

/-- clean_query of main.py lines 64-76. -/
def clean_query (stopwords : List PyStr) (query_string : PyStr) : List PyStr :=
  (query_tokens query_string).filter (fun term => decide (term ∉ stopwords))

/-- Python set(...) of a list of ints, in the canonical representation:
the ascending list of the distinct elements. -/
def pySet (xs : List ℤ) : List ℤ := (List.insertionSort (· ≤ ·) xs).dedup

/-- set.intersection (main.py line 104) on canonical representations. -/
def pyInter (s t : List ℤ) : List ℤ := s.filter (fun x => decide (x ∈ t))

/-- Document-id set of a term entry (main.py lines 97 and 103). -/
def doc_ids (e : TermEntry) : List ℤ := pySet (e.docs.map Posting.docid)

/-- Loop of main.py lines 100-104: intersect the candidates with each
remaining term's documents; none models the `return []` taken when a term
is missing from the index. -/
def intersect_terms (inverted_index : InvIndex) :
    List PyStr → List ℤ → Option (List ℤ)
  | [], candidate_docs => some candidate_docs
  | term :: rest, candidate_docs =>
    match inverted_index term with
    | none => none
    | some e => intersect_terms inverted_index rest (pyInter candidate_docs (doc_ids e))

/-- Lookup of inverted_index[term]["idf"]; every use site has already
checked that term is a key, so the default 0 is never read there. -/
def idf_of (inverted_index : InvIndex) (term : PyStr) : ℚ :=
  ((inverted_index term).map TermEntry.idf).getD 0

/-- query_vector[term] before normalization (main.py lines 113-118):
occurrence count of the term in the query times its idf. -/
def query_weight (inverted_index : InvIndex) (query_terms : List PyStr)
    (term : PyStr) : ℚ :=
  (query_terms.count term : ℚ) * idf_of inverted_index term

/-- query_norm_factor before math.sqrt (main.py lines 111-119).  The loop
runs over all occurrences in query_terms, so a repeated term adds its
squared weight once per occurrence. -/
def query_norm_sq (inverted_index : InvIndex) (query_terms : List PyStr) : ℚ :=
  (query_terms.map (fun t => query_weight inverted_index query_terms t ^ 2)).sum

/-- Modelled from the spec (section 4.4 step 5): the squared Euclidean norm
of the query vector taken over the distinct query terms only, each distinct
term contributing one squared weight. -/
def spec_query_norm_sq (inverted_index : InvIndex) (query_terms : List PyStr) : ℚ :=
  (query_terms.dedup.map (fun t => query_weight inverted_index query_terms t ^ 2)).sum

/-- pagerank.get(docid, 0.0) (main.py line 153). -/
def pagerank_get (pagerank : PagerankTab) (docid : ℤ) : ℚ :=
  (pagerank docid).getD 0

/-- One result dict of main.py lines 158-161.  The float score
weight*pr + (1-weight)*tfidf is stored exactly as the pair
(pr_part, tfidf_part); its real value divides tfidf_part by the square
root of the squared query norm (scoreVal). -/
structure ScoredDoc where
  docid : ℤ
  pr_part : ℚ
  tfidf_part : ℚ
deriving DecidableEq

/-- Real value of a stored score: the division of the dot product by the
query norm sqrt(S) of main.py lines 121-125 and 150, performed
symbolically. -/
noncomputable def scoreVal (S : ℚ) (r : ScoredDoc) : ℝ :=
  (r.pr_part : ℝ) + (r.tfidf_part : ℝ) / Real.sqrt (S : ℝ)

/-- Option-valued map, modelling a Python loop whose body may raise. -/
def mapOption (f : α → Option β) : List α → Option (List β)
  | [] => some []
  | a :: l => do
    let b ← f a
    let bs ← mapOption f l
    pure (b :: bs)

/-- Contribution of one occurrence of term to the dot product for docid
(main.py lines 133-150), without the query-norm division, which is kept
symbolic: the code adds query_vector[term] * doc_term_weight and
query_vector[term] equals query_weight / sqrt(S).  none models the
ZeroDivisionError raised when the posting's norm_factor is 0. -/
def term_contrib (inverted_index : InvIndex) (query_terms : List PyStr)
    (docid : ℤ) (term : PyStr) : Option ℚ :=
  match (inverted_index term).bind (fun e => e.docs.find? (fun d => d.docid == docid)) with
  | none => some 0
  | some d =>
    if d.norm_factor = 0 then none
    else some (query_weight inverted_index query_terms term *
      ((d.term_freq : ℚ) * idf_of inverted_index term / d.norm_factor))

/-- Score of one candidate document (main.py lines 129-161). -/
def score_doc (inverted_index : InvIndex) (pagerank : PagerankTab)
    (query_terms : List PyStr) (weight : ℚ) (docid : ℤ) : Option ScoredDoc := do
  let contribs ← mapOption (term_contrib inverted_index query_terms docid) query_terms
  pure ⟨docid, weight * pagerank_get pagerank docid, (1 - weight) * contribs.sum⟩

/-- Decision procedure for p ≤ q * sqrt S over the rationals, meant for
S > 0 (at the sort, S is positive or the code has already raised). -/
def sqrt_le_dec (p q S : ℚ) : Bool :=
  if 0 ≤ q then decide (p ≤ 0) || decide (p ^ 2 ≤ q ^ 2 * S)
  else decide (p < 0) && decide (q ^ 2 * S ≤ p ^ 2)

/-- Comparison "real score of y ≤ real score of x" on stored scores,
decided on the rational representation. -/
def score_ge (S : ℚ) (x y : ScoredDoc) : Bool :=
  if S ≤ 0 then decide (y.pr_part ≤ x.pr_part)
  else sqrt_le_dec (y.tfidf_part - x.tfidf_part) (x.pr_part - y.pr_part) S

/-- results.sort(key=..., reverse=True) of main.py line 164: Python sort is
stable, and insertion sort with the nonstrict descending-score relation is
the stable sort by descending score.  No tie-break key is passed. -/
def sort_results (S : ℚ) (results : List ScoredDoc) : List ScoredDoc :=
  List.insertionSort (fun x y => score_ge S x y = true) results

/-- A set-iteration function is valid when it enumerates exactly the
elements of the canonical representation, in some order. -/
def validIter (iter : List ℤ → List ℤ) : Prop :=
  ∀ l : List ℤ, (iter l).Perm l

/-- calculate_scores of main.py lines 79-166.  none models an uncaught
ZeroDivisionError (the query-norm division of line 125 is not guarded, and
neither is the document-norm division of line 147); some [] covers the
early returns. -/
def calculate_scores (iter : List ℤ → List ℤ) (inverted_index : InvIndex)
    (pagerank : PagerankTab) : List PyStr → ℚ → Option (List ScoredDoc)
  | [], _ => some []
  | t0 :: rest, weight =>
    match inverted_index t0 with
    | none => some []
    | some e0 =>
      match intersect_terms inverted_index rest (doc_ids e0) with
      | none => some []
      | some candidate_docs =>
        if candidate_docs = [] then some []
        else
          if query_norm_sq inverted_index (t0 :: rest) = 0 then none
          else do
            let results ← mapOption
              (score_doc inverted_index pagerank (t0 :: rest) weight)
              (iter candidate_docs)
            pure (sort_results (query_norm_sq inverted_index (t0 :: rest)) results)

/-- Weight-parameter handling of main.py lines 186-189: parameter absent
gives the default 0.5, and a present value on which float() raises
ValueError falls back to 0.5. -/
def get_weight (pyFloat : PyStr → Option ℚ) : Option PyStr → ℚ
  | none => 0.5
  | some s => (pyFloat s).getD 0.5

/-- get_hits of main.py lines 179-197, up to the JSON envelope. -/
def get_hits (iter : List ℤ → List ℤ) (inverted_index : InvIndex)
    (pagerank : PagerankTab) (stopwords : List PyStr)
    (pyFloat : PyStr → Option ℚ) (q_arg w_arg : Option PyStr) :
    Option (List ScoredDoc) :=
  calculate_scores iter inverted_index pagerank
    (clean_query stopwords (q_arg.getD []))
    (get_weight pyFloat w_arg)

/-- Ordering asserted by claim C1: nonincreasing real score, and ascending
document id among equal scores. -/
def resOrd (S : ℚ) (x y : ScoredDoc) : Prop :=
  scoreVal S y ≤ scoreVal S x ∧ (scoreVal S x = scoreVal S y → x.docid < y.docid)

/-- Concrete index of the spec's worked example (section 8). -/
def demo_index : InvIndex := fun t =>
  if t = ['c', 'a', 't'] then some ⟨2, [⟨1, 3, 5⟩, ⟨2, 1, 2⟩]⟩
  else if t = ['d', 'o', 'g'] then some ⟨1, [⟨1, 2, 5⟩]⟩
  else none

/-- Concrete pagerank table of the spec's worked example. -/
def demo_pagerank : PagerankTab := fun d =>
  if d = 1 then some (4/5) else if d = 2 then some (1/10) else none

/-- Index with two documents that tie on score: one term, idf 1, both
postings with term frequency 1 and norm 1. -/
def tie_index : InvIndex := fun t =>
  if t = ['a', 'a'] then some ⟨1, [⟨1, 1, 1⟩, ⟨8, 1, 1⟩]⟩ else none

/-- Empty pagerank table. -/
def no_pagerank : PagerankTab := fun _ => none

/-- Index whose only term has idf 0, making the query norm zero. -/
def zero_idf_index : InvIndex := fun t =>
  if t = ['z'] then some ⟨0, [⟨1, 1, 1⟩]⟩ else none

/-- Toy model of Python float() used for concrete inputs: only the literal
"2.0" parses; anything else raises. -/
def demo_pyFloat : PyStr → Option ℚ := fun s =>
  if s = ['2', '.', '0'] then some 2 else none

/-- Toy model of Python int() used for concrete inputs: only the literal
"7" parses; anything else raises. -/
def demo_pyInt : PyStr → Option ℤ := fun s =>
  if s = ['7'] then some 7 else none

/-- Index holding one term whose postings list is empty, as load_index
stores for a line with an incomplete document group. -/
def empty_docs_index : InvIndex := fun t =>
  if t = ['e'] then some ⟨3, []⟩ else none

/-- Python " ".join applied to a term list. -/
def joinWords : List PyStr → PyStr
  | [] => []
  | [w] => w
  | w :: ws => w ++ ' ' :: joinWords ws

/-- Lowercase ASCII letter or ASCII digit. -/
def lowerAlnum (c : Char) : Prop :=
  ('a' ≤ c ∧ c ≤ 'z') ∨ ('0' ≤ c ∧ c ≤ '9')

theorem lowerAlnum_ne_space {c : Char} (h : lowerAlnum c) : c ≠ ' ' := by
  rintro rfl
  rcases h with ⟨h1, -⟩ | ⟨h1, -⟩
  · exact absurd (show (97 : ℕ) ≤ 32 from h1) (by omega)
  · exact absurd (show (48 : ℕ) ≤ 32 from h1) (by omega)

theorem keep_of_lowerAlnum {c : Char} (h : lowerAlnum c) : keepChar c = true := by
  simp only [keepChar, Bool.or_eq_true, Bool.and_eq_true, decide_eq_true_eq]
  rcases h with h | h
  · exact Or.inl (Or.inl (Or.inl h))
  · exact Or.inl (Or.inr h)

theorem toLower_fix {c : Char} (h : lowerAlnum c) : Char.toLower c = c := by
  have hn : ¬ (c.toNat ≥ 65 ∧ c.toNat ≤ 90) := by
    rcases h with ⟨h1, -⟩ | ⟨-, h2⟩
    · have : (97 : ℕ) ≤ c.toNat := h1
      omega
    · have : c.toNat ≤ 57 := h2
      omega
  unfold Char.toLower
  rw [if_neg hn]

theorem toLower_space : Char.toLower ' ' = ' ' := rfl

theorem lowerAlnum_toLower_of_keep {c : Char} (hk : keepChar c = true) (hs : c ≠ ' ') :
    lowerAlnum (Char.toLower c) := by
  simp only [keepChar, Bool.or_eq_true, Bool.and_eq_true, decide_eq_true_eq,
    beq_iff_eq] at hk
  rcases hk with ((⟨h1, h2⟩ | ⟨h1, h2⟩) | ⟨h1, h2⟩) | h
  · rw [toLower_fix (Or.inl ⟨h1, h2⟩)]
    exact Or.inl ⟨h1, h2⟩
  · have h1' : 65 ≤ c.toNat := h1
    have h2' : c.toNat ≤ 90 := h2
    have hv : (c.toNat + 32).isValidChar := by
      left; omega
    have htl : (Char.toLower c).toNat = c.toNat + 32 := by
      unfold Char.toLower
      rw [if_pos ⟨h1', h2'⟩, Char.ofNat, dif_pos hv]
      rfl
    constructor
    constructor
    · show (97 : ℕ) ≤ (Char.toLower c).toNat
      omega
    · show (Char.toLower c).toNat ≤ 122
      omega
  · rw [toLower_fix (Or.inr ⟨h1, h2⟩)]
    exact Or.inr ⟨h1, h2⟩
  · exact absurd h hs

theorem mem_splitOnP {p : Char → Bool} :
    ∀ {cs : List Char} {w : PyStr}, w ∈ cs.splitOnP p → ∀ c ∈ w, c ∈ cs ∧ p c = false := by
  intro cs
  induction cs with
  | nil =>
    intro w hw c hc
    rw [List.splitOnP_nil] at hw
    simp only [List.mem_singleton] at hw
    subst hw
    cases hc
  | cons x xs ih =>
    intro w hw c hc
    rw [List.splitOnP_cons] at hw
    by_cases hx : p x = true
    · rw [if_pos hx] at hw
      rcases List.mem_cons.mp hw with rfl | hw'
      · cases hc
      · have := ih hw' c hc
        exact ⟨List.mem_cons_of_mem _ this.1, this.2⟩
    · rw [if_neg hx] at hw
      rcases hh : xs.splitOnP p with - | ⟨h0, t0⟩
      · exact absurd hh (List.splitOnP_ne_nil p xs)
      · rw [hh] at hw
        simp only [List.modifyHead] at hw
        rcases List.mem_cons.mp hw with rfl | hw'
        · rcases List.mem_cons.mp hc with rfl | hc'
          · exact ⟨List.mem_cons_self _ _, Bool.eq_false_iff.mpr hx⟩
          · have hmem : h0 ∈ xs.splitOnP p := by
              rw [hh]; exact List.mem_cons_self _ _
            have := ih hmem c hc'
            exact ⟨List.mem_cons_of_mem _ this.1, this.2⟩
        · have hmem : w ∈ xs.splitOnP p := by
            rw [hh]; exact List.mem_cons_of_mem _ hw'
          have := ih hmem c hc
          exact ⟨List.mem_cons_of_mem _ this.1, this.2⟩

theorem mem_pySplit {cs : PyStr} {w : PyStr} (hw : w ∈ pySplit cs) :
    w ≠ [] ∧ ∀ c ∈ w, c ∈ cs ∧ c ≠ ' ' := by
  unfold pySplit at hw
  have h1 := List.mem_filter.mp hw
  refine ⟨by simpa using h1.2, fun c hc => ?_⟩
  have h2 : w ∈ cs.splitOnP (· == ' ') := h1.1
  have := mem_splitOnP h2 c hc
  exact ⟨this.1, by simpa using this.2⟩

theorem mem_query_tokens {q : PyStr} {t : PyStr} (ht : t ∈ query_tokens q) :
    t ≠ [] ∧ ∀ c ∈ t, lowerAlnum c := by
  unfold query_tokens at ht
  obtain ⟨hne, hchar⟩ := mem_pySplit ht
  refine ⟨hne, fun c hc => ?_⟩
  obtain ⟨hmem, hsp⟩ := hchar c hc
  obtain ⟨c', hc', rfl⟩ := List.mem_map.mp hmem
  have hk : keepChar c' = true := (List.mem_filter.mp hc').2
  have hc's : c' ≠ ' ' := by
    rintro rfl
    exact hsp toLower_space
  exact lowerAlnum_toLower_of_keep hk hc's

theorem mem_clean_query {sw : List PyStr} {q : PyStr} {t : PyStr}
    (ht : t ∈ clean_query sw q) :
    t ≠ [] ∧ (∀ c ∈ t, lowerAlnum c) ∧ t ∉ sw := by
  unfold clean_query at ht
  have h1 := List.mem_filter.mp ht
  obtain ⟨hne, hchar⟩ := mem_query_tokens h1.1
  exact ⟨hne, hchar, by simpa using h1.2⟩

theorem joinWords_eq_intercalate (ts : List PyStr) :
    joinWords ts = List.intercalate [' '] ts := by
  induction ts with
  | nil => rfl
  | cons w ws ih =>
    cases ws with
    | nil => simp [joinWords, List.intercalate, List.intersperse]
    | cons v vs =>
      rw [show joinWords (w :: v :: vs) = w ++ ' ' :: joinWords (v :: vs) from rfl, ih]
      simp [List.intercalate, List.intersperse]

theorem mem_joinWords {ts : List PyStr} {c : Char} (hc : c ∈ joinWords ts) :
    c = ' ' ∨ ∃ t ∈ ts, c ∈ t := by
  induction ts with
  | nil => cases hc
  | cons w ws ih =>
    cases ws with
    | nil =>
      exact Or.inr ⟨w, List.mem_cons_self _ _, hc⟩
    | cons v vs =>
      rw [show joinWords (w :: v :: vs) = w ++ ' ' :: joinWords (v :: vs) from rfl] at hc
      rcases List.mem_append.mp hc with h | h
      · exact Or.inr ⟨w, List.mem_cons_self _ _, h⟩
      · rcases List.mem_cons.mp h with rfl | h'
        · exact Or.inl rfl
        · rcases ih h' with h'' | ⟨t, ht, hct⟩
          · exact Or.inl h''
          · exact Or.inr ⟨t, List.mem_cons_of_mem _ ht, hct⟩

theorem pySplit_joinWords {ts : List PyStr}
    (hne : ∀ t ∈ ts, t ≠ []) (hsp : ∀ t ∈ ts, ' ' ∉ t) :
    pySplit (joinWords ts) = ts := by
  cases ts with
  | nil => rfl
  | cons w ws =>
    unfold pySplit
    rw [joinWords_eq_intercalate]
    rw [show List.intercalate [' '] (w :: ws) = [' '].intercalate (w :: ws) from rfl]
    rw [List.splitOn_intercalate (w :: ws) ' ' hsp (by simp)]
    rw [List.filter_eq_self]
    intro a ha
    simpa using hne a ha

theorem map_eq_self_of_mem {f : α → α} {l : List α} (h : ∀ a ∈ l, f a = a) :
    l.map f = l := by
  induction l with
  | nil => rfl
  | cons x xs ih =>
    rw [List.map_cons, h x (List.mem_cons_self _ _), ih (fun a ha => h a (List.mem_cons_of_mem _ ha))]

theorem clean_query_join_of_wf {sw : List PyStr} {M : List PyStr}
    (hterm : ∀ t ∈ M, t ≠ [] ∧ (∀ c ∈ t, lowerAlnum c) ∧ t ∉ sw) :
    clean_query sw (joinWords M) = M := by
  have hchar : ∀ c ∈ joinWords M, c = ' ' ∨ lowerAlnum c := by
    intro c hc
    rcases mem_joinWords hc with h | ⟨t, ht, hct⟩
    · exact Or.inl h
    · exact Or.inr ((hterm t ht).2.1 c hct)
  unfold clean_query query_tokens
  have hfix1 : (joinWords M).filter keepChar = joinWords M := by
    rw [List.filter_eq_self]
    intro c hc
    rcases hchar c hc with rfl | h
    · rfl
    · exact keep_of_lowerAlnum h
  have hfix2 : (joinWords M).map Char.toLower = joinWords M := by
    apply map_eq_self_of_mem
    intro c hc
    rcases hchar c hc with rfl | h
    · exact toLower_space
    · exact toLower_fix h
  rw [hfix1, hfix2]
  rw [pySplit_joinWords (fun t ht => (hterm t ht).1)
    (fun t ht hsp => lowerAlnum_ne_space ((hterm t ht).2.1 ' ' hsp) rfl)]
  rw [List.filter_eq_self]
  intro t ht
  simpa using (hterm t ht).2.2

theorem clean_query_join_fix (sw : List PyStr) (q : PyStr) :
    clean_query sw (joinWords (clean_query sw q)) = clean_query sw q :=
  clean_query_join_of_wf (fun t ht => mem_clean_query ht)

theorem le_of_sq_le_sq {a b : ℝ} (hb : 0 ≤ b) (h : a ^ 2 ≤ b ^ 2) : a ≤ b := by
  calc a ≤ |a| := le_abs_self a
  _ = Real.sqrt (a ^ 2) := (Real.sqrt_sq_eq_abs a).symm
  _ ≤ Real.sqrt (b ^ 2) := Real.sqrt_le_sqrt h
  _ = b := Real.sqrt_sq hb

theorem sqrt_le_dec_iff {p q S : ℚ} (hS : 0 < S) :
    sqrt_le_dec p q S = true ↔ (p : ℝ) ≤ (q : ℝ) * Real.sqrt (S : ℝ) := by
  have hS' : (0 : ℝ) < (S : ℝ) := by exact_mod_cast hS
  have hs0 : 0 < Real.sqrt (S : ℝ) := Real.sqrt_pos.mpr hS'
  have hs2 : Real.sqrt (S : ℝ) ^ 2 = (S : ℝ) := Real.sq_sqrt hS'.le
  unfold sqrt_le_dec
  by_cases hq : (0 : ℚ) ≤ q
  · rw [if_pos hq]
    have hq' : (0 : ℝ) ≤ (q : ℝ) := by exact_mod_cast hq
    simp only [Bool.or_eq_true, decide_eq_true_eq]
    constructor
    · rintro (h | h)
      · calc (p : ℝ) ≤ 0 := by exact_mod_cast h
        _ ≤ (q : ℝ) * Real.sqrt (S : ℝ) := mul_nonneg hq' hs0.le
      · apply le_of_sq_le_sq (mul_nonneg hq' hs0.le)
        have h' : (p : ℝ) ^ 2 ≤ (q : ℝ) ^ 2 * (S : ℝ) := by exact_mod_cast h
        calc (p : ℝ) ^ 2 ≤ (q : ℝ) ^ 2 * (S : ℝ) := h'
        _ = ((q : ℝ) * Real.sqrt (S : ℝ)) ^ 2 := by rw [mul_pow, hs2]
    · intro h
      by_cases hp : p ≤ 0
      · exact Or.inl hp
      · push_neg at hp
        have hp' : (0 : ℝ) ≤ (p : ℝ) := by exact_mod_cast hp.le
        right
        have h2 : (p : ℝ) ^ 2 ≤ ((q : ℝ) * Real.sqrt (S : ℝ)) ^ 2 :=
          pow_le_pow_left hp' h 2
        rw [mul_pow, hs2] at h2
        exact_mod_cast h2
  · rw [if_neg hq]
    push_neg at hq
    have hq' : (q : ℝ) < 0 := by exact_mod_cast hq
    have hqs : (q : ℝ) * Real.sqrt (S : ℝ) < 0 := mul_neg_of_neg_of_pos hq' hs0
    simp only [Bool.and_eq_true, decide_eq_true_eq]
    constructor
    · rintro ⟨h1, h2⟩
      have h2' : (q : ℝ) ^ 2 * (S : ℝ) ≤ (p : ℝ) ^ 2 := by exact_mod_cast h2
      have hp' : (p : ℝ) < 0 := by exact_mod_cast h1
      have key : -((q : ℝ) * Real.sqrt (S : ℝ)) ≤ -(p : ℝ) := by
        apply le_of_sq_le_sq (by linarith)
        calc (-((q : ℝ) * Real.sqrt (S : ℝ))) ^ 2 = (q : ℝ) ^ 2 * (S : ℝ) := by
              rw [neg_pow, mul_pow, hs2]; ring
        _ ≤ (p : ℝ) ^ 2 := h2'
        _ = (-(p : ℝ)) ^ 2 := by ring
      linarith
    · intro h
      have hp' : (p : ℝ) < 0 := lt_of_le_of_lt h hqs
      refine ⟨by exact_mod_cast hp', ?_⟩
      have key : (-((q : ℝ) * Real.sqrt (S : ℝ))) ^ 2 ≤ (-(p : ℝ)) ^ 2 :=
        pow_le_pow_left (by linarith) (by linarith) 2
      have key' : (q : ℝ) ^ 2 * (S : ℝ) ≤ (p : ℝ) ^ 2 := by
        calc (q : ℝ) ^ 2 * (S : ℝ) = (-((q : ℝ) * Real.sqrt (S : ℝ))) ^ 2 := by
              rw [neg_pow, mul_pow, hs2]; ring
        _ ≤ (-(p : ℝ)) ^ 2 := key
        _ = (p : ℝ) ^ 2 := by ring
      exact_mod_cast key'

theorem score_ge_iff (S : ℚ) (x y : ScoredDoc) :
    score_ge S x y = true ↔ scoreVal S y ≤ scoreVal S x := by
  unfold score_ge scoreVal
  by_cases hS : S ≤ 0
  · rw [if_pos hS]
    have hsq : Real.sqrt (S : ℝ) = 0 := Real.sqrt_eq_zero'.mpr (by exact_mod_cast hS)
    rw [hsq]
    simp only [div_zero, add_zero, decide_eq_true_eq, Rat.cast_le]
  · rw [if_neg hS]
    push_neg at hS
    rw [sqrt_le_dec_iff hS]
    have hs0 : 0 < Real.sqrt (S : ℝ) := Real.sqrt_pos.mpr (by exact_mod_cast hS)
    have expand : ∀ u v : ℝ, u + v / Real.sqrt (S : ℝ)
        = (u * Real.sqrt (S : ℝ) + v) / Real.sqrt (S : ℝ) := by
      intro u v
      field_simp
    rw [expand, expand, div_le_div_right hs0]
    push_cast
    constructor <;> intro h <;> linarith

theorem score_ge_total (S : ℚ) (x y : ScoredDoc) :
    score_ge S x y = true ∨ score_ge S y x = true := by
  rcases le_total (scoreVal S y) (scoreVal S x) with h | h
  · exact Or.inl ((score_ge_iff S x y).mpr h)
  · exact Or.inr ((score_ge_iff S y x).mpr h)

theorem score_ge_trans (S : ℚ) (x y z : ScoredDoc)
    (h1 : score_ge S x y = true) (h2 : score_ge S y z = true) :
    score_ge S x z = true :=
  (score_ge_iff S x z).mpr
    (le_trans ((score_ge_iff S y z).mp h2) ((score_ge_iff S x y).mp h1))

theorem pairwise_resOrd_orderedInsert {S : ℚ} {x : ScoredDoc} {l : List ScoredDoc}
    (hl : l.Pairwise (resOrd S)) (hid : ∀ y ∈ l, x.docid < y.docid) :
    (List.orderedInsert (fun a b => score_ge S a b = true) x l).Pairwise (resOrd S) := by
  induction l with
  | nil => simp [List.orderedInsert]
  | cons y ys ih =>
    rw [List.orderedInsert]
    by_cases hxy : score_ge S x y = true
    · rw [if_pos hxy]
      apply List.pairwise_cons.mpr
      refine ⟨fun z hz => ?_, hl⟩
      rcases List.mem_cons.mp hz with rfl | hz'
      · exact ⟨(score_ge_iff S x z).mp hxy, fun _ => hid z (List.mem_cons_self _ _)⟩
      · have hyz := (List.pairwise_cons.mp hl).1 z hz'
        exact ⟨le_trans hyz.1 ((score_ge_iff S x y).mp hxy),
          fun _ => hid z (List.mem_cons_of_mem _ hz')⟩
    · rw [if_neg hxy]
      have hvxy : scoreVal S x < scoreVal S y :=
        not_le.mp (fun h => hxy ((score_ge_iff S x y).mpr h))
      apply List.pairwise_cons.mpr
      constructor
      · intro z hz
        rcases (List.mem_orderedInsert _).mp hz with rfl | hz'
        · exact ⟨hvxy.le, fun he => absurd he.symm hvxy.ne⟩
        · exact (List.pairwise_cons.mp hl).1 z hz'
      · exact ih (List.pairwise_cons.mp hl).2
          (fun y' hy' => hid y' (List.mem_cons_of_mem _ hy'))

theorem pairwise_resOrd_sort {S : ℚ} {l : List ScoredDoc}
    (h : l.Pairwise (fun a b => a.docid < b.docid)) :
    (sort_results S l).Pairwise (resOrd S) := by
  unfold sort_results
  induction l with
  | nil => simp
  | cons x xs ih =>
    rw [List.insertionSort]
    apply pairwise_resOrd_orderedInsert
    · exact ih (List.pairwise_cons.mp h).2
    · intro y hy
      exact (List.pairwise_cons.mp h).1 y ((List.perm_insertionSort _ xs).subset hy)

theorem pairwise_score_le_sort (S : ℚ) (l : List ScoredDoc) :
    (sort_results S l).Pairwise (fun x y => scoreVal S y ≤ scoreVal S x) := by
  unfold sort_results
  haveI : IsTotal ScoredDoc (fun a b => score_ge S a b = true) := ⟨score_ge_total S⟩
  haveI : IsTrans ScoredDoc (fun a b => score_ge S a b = true) := ⟨score_ge_trans S⟩
  have hs := List.sorted_insertionSort (fun a b => score_ge S a b = true) l
  exact hs.imp (fun hab => (score_ge_iff S _ _).mp hab)

theorem mapOption_docids {f : ℤ → Option ScoredDoc}
    (hf : ∀ d r, f d = some r → r.docid = d) :
    ∀ {l : List ℤ} {ys : List ScoredDoc}, mapOption f l = some ys →
      ys.map ScoredDoc.docid = l := by
  intro l
  induction l with
  | nil =>
    intro ys h
    cases h
    rfl
  | cons a l ih =>
    intro ys h
    unfold mapOption at h
    cases hfa : f a with
    | none => rw [hfa] at h; cases h
    | some b =>
      rw [hfa] at h
      cases hml : mapOption f l with
      | none => rw [hml] at h; cases h
      | some bs =>
        rw [hml] at h
        cases h
        rw [List.map_cons, hf a b hfa, ih hml]

theorem mapOption_exists {f : α → Option β} :
    ∀ {l : List α}, (∀ a ∈ l, ∃ b, f a = some b) → ∃ ys, mapOption f l = some ys := by
  intro l
  induction l with
  | nil => exact fun _ => ⟨[], rfl⟩
  | cons a l ih =>
    intro h
    obtain ⟨b, hb⟩ := h a (List.mem_cons_self _ _)
    obtain ⟨ys, hys⟩ := ih (fun a' ha' => h a' (List.mem_cons_of_mem _ ha'))
    exact ⟨b :: ys, by unfold mapOption; rw [hb, hys]; rfl⟩

theorem intersect_terms_subset {inverted_index : InvIndex} :
    ∀ {ts : List PyStr} {acc c : List ℤ},
      intersect_terms inverted_index ts acc = some c → ∀ x ∈ c, x ∈ acc := by
  intro ts
  induction ts with
  | nil =>
    intro acc c h x hx
    cases h
    exact hx
  | cons t ts ih =>
    intro acc c h x hx
    unfold intersect_terms at h
    cases he : inverted_index t with
    | none => rw [he] at h; cases h
    | some e =>
      rw [he] at h
      have := ih h x hx
      exact (List.mem_filter.mp this).1

theorem intersect_terms_mem_term {inverted_index : InvIndex} :
    ∀ {ts : List PyStr} {acc c : List ℤ},
      intersect_terms inverted_index ts acc = some c →
      ∀ t ∈ ts, ∃ e, inverted_index t = some e ∧ ∀ x ∈ c, x ∈ doc_ids e := by
  intro ts
  induction ts with
  | nil =>
    intro acc c _ t ht
    cases ht
  | cons t' ts ih =>
    intro acc c h t ht
    unfold intersect_terms at h
    cases he : inverted_index t' with
    | none => rw [he] at h; cases h
    | some e =>
      rw [he] at h
      rcases List.mem_cons.mp ht with rfl | ht'
      · refine ⟨e, he, fun x hx => ?_⟩
        have := intersect_terms_subset h x hx
        have := (List.mem_filter.mp this).2
        simpa using this
      · exact ih h t ht'

theorem intersect_terms_none_of_missing {inverted_index : InvIndex} :
    ∀ {ts : List PyStr} {t : PyStr}, t ∈ ts → inverted_index t = none →
      ∀ acc, intersect_terms inverted_index ts acc = none := by
  intro ts
  induction ts with
  | nil =>
    intro t ht
    cases ht
  | cons t' ts ih =>
    intro t ht hmiss acc
    unfold intersect_terms
    rcases List.mem_cons.mp ht with rfl | ht'
    · rw [hmiss]
    · cases he : inverted_index t' with
      | none => rfl
      | some e => exact ih ht' hmiss _

theorem pySet_sorted (xs : List ℤ) : (pySet xs).Pairwise (· < ·) := by
  unfold pySet
  have hsorted : (List.insertionSort (· ≤ ·) xs).Pairwise (· ≤ ·) :=
    List.sorted_insertionSort (· ≤ ·) xs
  have hsub : ((List.insertionSort (· ≤ ·) xs).dedup).Sublist (List.insertionSort (· ≤ ·) xs) :=
    List.dedup_sublist _
  have h1 : ((List.insertionSort (· ≤ ·) xs).dedup).Pairwise (· ≤ ·) :=
    hsorted.sublist hsub
  have h2 : ((List.insertionSort (· ≤ ·) xs).dedup).Pairwise (· ≠ ·) :=
    List.nodup_dedup _
  exact (h1.and h2).imp (fun h => lt_of_le_of_ne h.1 h.2)

theorem pySet_mem (xs : List ℤ) (x : ℤ) : x ∈ pySet xs ↔ x ∈ xs := by
  unfold pySet
  rw [List.mem_dedup]
  exact (List.perm_insertionSort _ xs).mem_iff

theorem intersect_terms_sorted {inverted_index : InvIndex} :
    ∀ {ts : List PyStr} {acc c : List ℤ}, acc.Pairwise (· < ·) →
      intersect_terms inverted_index ts acc = some c → c.Pairwise (· < ·) := by
  intro ts
  induction ts with
  | nil =>
    intro acc c hacc h
    cases h
    exact hacc
  | cons t ts ih =>
    intro acc c hacc h
    unfold intersect_terms at h
    cases he : inverted_index t with
    | none => rw [he] at h; cases h
    | some e =>
      rw [he] at h
      exact ih (List.Pairwise.filter _ hacc) h

/-- Inversion of a run of calculate_scores returning some result. -/
theorem calculate_scores_inv {iter : List ℤ → List ℤ} {inverted_index : InvIndex}
    {pagerank : PagerankTab} {query_terms : List PyStr} {weight : ℚ}
    {res : List ScoredDoc}
    (h : calculate_scores iter inverted_index pagerank query_terms weight = some res) :
    res = [] ∨
    ∃ t0 rest e0 cands res0, query_terms = t0 :: rest ∧
      inverted_index t0 = some e0 ∧
      intersect_terms inverted_index rest (doc_ids e0) = some cands ∧
      cands ≠ [] ∧
      query_norm_sq inverted_index query_terms ≠ 0 ∧
      mapOption (score_doc inverted_index pagerank query_terms weight) (iter cands)
        = some res0 ∧
      res = sort_results (query_norm_sq inverted_index query_terms) res0 := by
  cases query_terms with
  | nil =>
    cases h
    exact Or.inl rfl
  | cons t0 rest =>
    simp only [calculate_scores] at h
    cases he0 : inverted_index t0 with
    | none =>
      simp only [he0] at h
      cases h
      exact Or.inl rfl
    | some e0 =>
      simp only [he0] at h
      cases hint : intersect_terms inverted_index rest (doc_ids e0) with
      | none =>
        simp only [hint] at h
        cases h
        exact Or.inl rfl
      | some cands =>
        simp only [hint] at h
        by_cases hc : cands = []
        · rw [if_pos hc] at h
          cases h
          exact Or.inl rfl
        · rw [if_neg hc] at h
          by_cases hS : query_norm_sq inverted_index (t0 :: rest) = 0
          · rw [if_pos hS] at h
            cases h
          · rw [if_neg hS] at h
            cases hmo : mapOption
                (score_doc inverted_index pagerank (t0 :: rest) weight) (iter cands) with
            | none =>
              rw [hmo] at h
              cases h
            | some res0 =>
              rw [hmo] at h
              cases h
              exact Or.inr ⟨t0, rest, e0, cands, res0, rfl, he0, hint, hc, hS, hmo, rfl⟩

theorem score_doc_docid {inverted_index : InvIndex} {pagerank : PagerankTab}
    {query_terms : List PyStr} {weight : ℚ} {d : ℤ} {r : ScoredDoc}
    (h : score_doc inverted_index pagerank query_terms weight d = some r) :
    r.docid = d := by
  unfold score_doc at h
  cases hc : mapOption (term_contrib inverted_index query_terms d) query_terms with
  | none => rw [hc] at h; cases h
  | some contribs =>
    rw [hc] at h
    cases h
    rfl

theorem query_norm_sq_pos {inverted_index : InvIndex} {query_terms : List PyStr}
    {t0 : PyStr} {e0 : TermEntry} (hmem : t0 ∈ query_terms)
    (he0 : inverted_index t0 = some e0) (hidf : 0 < e0.idf) :
    0 < query_norm_sq inverted_index query_terms := by
  unfold query_norm_sq
  have hnn : ∀ x ∈ query_terms.map (fun t => query_weight inverted_index query_terms t ^ 2),
      (0 : ℚ) ≤ x := by
    intro x hx
    obtain ⟨t, -, rfl⟩ := List.mem_map.mp hx
    positivity
  have hm : query_weight inverted_index query_terms t0 ^ 2
      ∈ query_terms.map (fun t => query_weight inverted_index query_terms t ^ 2) :=
    List.mem_map_of_mem _ hmem
  have hle := List.single_le_sum hnn _ hm
  have hpos : 0 < query_weight inverted_index query_terms t0 ^ 2 := by
    unfold query_weight idf_of
    rw [he0]
    have hc : 0 < query_terms.count t0 := List.count_pos_iff_mem.mpr hmem
    have hc' : (0 : ℚ) < (query_terms.count t0 : ℚ) := by exact_mod_cast hc
    simp only [Option.map_some', Option.getD_some]
    positivity
  linarith

theorem term_contrib_isSome {inverted_index : InvIndex} {query_terms : List PyStr}
    {d : ℤ} {t : PyStr}
    (hv : ∀ e, inverted_index t = some e → ∀ p ∈ e.docs, p.norm_factor ≠ 0) :
    ∃ c, term_contrib inverted_index query_terms d t = some c := by
  cases he : inverted_index t with
  | none => exact ⟨0, by simp [term_contrib, he]⟩
  | some e =>
    cases hf : e.docs.find? (fun p => p.docid == d) with
    | none => exact ⟨0, by simp [term_contrib, he, hf]⟩
    | some p =>
      have hp : p ∈ e.docs := List.mem_of_find?_eq_some hf
      have hnz := hv e he p hp
      refine ⟨query_weight inverted_index query_terms t *
        ((p.term_freq : ℚ) * idf_of inverted_index t / p.norm_factor), ?_⟩
      simp [term_contrib, he, hf, hnz]

theorem score_doc_isSome {inverted_index : InvIndex} {pagerank : PagerankTab}
    {query_terms : List PyStr} {weight : ℚ} {d : ℤ}
    (hv : ∀ t ∈ query_terms, ∀ e, inverted_index t = some e →
      ∀ p ∈ e.docs, p.norm_factor ≠ 0) :
    ∃ r, score_doc inverted_index pagerank query_terms weight d = some r := by
  obtain ⟨cs, hcs⟩ := mapOption_exists
    (fun t ht => term_contrib_isSome (hv t ht) (d := d))
  exact ⟨_, by unfold score_doc; rw [hcs]; rfl⟩

theorem calculate_scores_total {iter : List ℤ → List ℤ} {inverted_index : InvIndex}
    {pagerank : PagerankTab} {query_terms : List PyStr} {weight : ℚ}
    (hv : ∀ t ∈ query_terms, ∀ e, inverted_index t = some e →
      0 < e.idf ∧ ∀ p ∈ e.docs, p.norm_factor ≠ 0) :
    ∃ res, calculate_scores iter inverted_index pagerank query_terms weight = some res := by
  cases query_terms with
  | nil => exact ⟨[], rfl⟩
  | cons t0 rest =>
    cases he0 : inverted_index t0 with
    | none => exact ⟨[], by simp only [calculate_scores, he0]⟩
    | some e0 =>
      cases hint : intersect_terms inverted_index rest (doc_ids e0) with
      | none => exact ⟨[], by simp only [calculate_scores, he0, hint]⟩
      | some cands =>
        by_cases hc : cands = []
        · exact ⟨[], by simp only [calculate_scores, he0, hint, if_pos hc]⟩
        · have hS : query_norm_sq inverted_index (t0 :: rest) ≠ 0 := by
            have := query_norm_sq_pos (List.mem_cons_self t0 rest) he0
              (hv t0 (List.mem_cons_self t0 rest) e0 he0).1
            linarith
          obtain ⟨res0, hmo⟩ := mapOption_exists
            (f := score_doc inverted_index pagerank (t0 :: rest) weight)
            (l := iter cands)
            (fun d _ => score_doc_isSome (fun t ht e he p hp => (hv t ht e he).2 p hp))
          refine ⟨sort_results (query_norm_sq inverted_index (t0 :: rest)) res0, ?_⟩
          simp only [calculate_scores, he0, hint, if_neg hc, if_neg hS, hmo]
          rfl

theorem clean_query_all_stop {stopwords : List PyStr} {q : PyStr}
    (h : ∀ u ∈ query_tokens q, u ∈ stopwords) :
    clean_query stopwords q = [] := by
  unfold clean_query
  rw [List.filter_eq_nil_iff]
  intro u hu
  simpa using h u hu

theorem calculate_scores_missing_term {iter : List ℤ → List ℤ}
    {inverted_index : InvIndex} {pagerank : PagerankTab}
    {query_terms : List PyStr} {weight : ℚ} {t : PyStr}
    (ht : t ∈ query_terms) (hmiss : inverted_index t = none) :
    calculate_scores iter inverted_index pagerank query_terms weight = some [] := by
  cases query_terms with
  | nil => cases ht
  | cons t0 rest =>
    rcases List.mem_cons.mp ht with rfl | ht'
    · simp only [calculate_scores, hmiss]
    · cases he0 : inverted_index t0 with
      | none => simp only [calculate_scores, he0]
      | some e0 =>
        have := intersect_terms_none_of_missing ht' hmiss (pyInter (doc_ids e0) (doc_ids e0))
        simp only [calculate_scores, he0,
          intersect_terms_none_of_missing ht' hmiss (doc_ids e0)]

theorem calculate_scores_empty_docs {iter : List ℤ → List ℤ}
    {inverted_index : InvIndex} {pagerank : PagerankTab}
    {query_terms : List PyStr} {weight : ℚ} {t : PyStr} {idf : ℚ}
    (hidx : inverted_index t = some ⟨idf, []⟩) (ht : t ∈ query_terms) :
    calculate_scores iter inverted_index pagerank query_terms weight = some [] := by
  cases query_terms with
  | nil => cases ht
  | cons t0 rest =>
    rcases List.mem_cons.mp ht with rfl | ht'
    · simp only [calculate_scores, hidx]
      cases hint : intersect_terms inverted_index rest (doc_ids ⟨idf, []⟩) with
      | none => simp
      | some cands =>
        have hsub := intersect_terms_subset hint
        have hc : cands = [] := by
          rw [List.eq_nil_iff_forall_not_mem]
          intro x hx
          have := hsub x hx
          simp [doc_ids, pySet] at this
        simp [hc]
    · cases he0 : inverted_index t0 with
      | none => simp only [calculate_scores, he0]
      | some e0 =>
        simp only [calculate_scores, he0]
        cases hint : intersect_terms inverted_index rest (doc_ids e0) with
        | none => simp
        | some cands =>
          obtain ⟨e, he, hsub⟩ := intersect_terms_mem_term hint t ht'
          rw [hidx] at he
          cases he
          have hc : cands = [] := by
            rw [List.eq_nil_iff_forall_not_mem]
            intro x hx
            have := hsub x hx
            simp [doc_ids, pySet] at this
          simp [hc]

theorem parse_doc_entries_short (pInt : PyStr → Option ℤ) (pFloat : PyStr → Option ℚ)
    {rest : List PyStr} (h : rest.length < 3) :
    parse_doc_entries pInt pFloat rest = some [] := by
  match rest, h with
  | [], _ => rfl
  | [a], _ => rfl
  | [a, b], _ => rfl

theorem load_index_line_incomplete (pInt : PyStr → Option ℤ) (pFloat : PyStr → Option ℚ)
    {term idf_tok : PyStr} {rest : List PyStr} {idf : ℚ}
    (h1 : rest ≠ []) (h2 : rest.length < 3) (h3 : pFloat idf_tok = some idf) :
    load_index_line pInt pFloat (term :: idf_tok :: rest) = .stored term ⟨idf, []⟩ := by
  simp only [load_index_line]
  rw [if_neg h1, h3, parse_doc_entries_short pInt pFloat h2]

theorem list_toFinset_dedup (l : List PyStr) : l.dedup.toFinset = l.toFinset := by
  ext a
  simp [List.mem_toFinset, List.mem_dedup]

theorem count_beq_irrel (m : PyStr) (l : List PyStr) :
    @List.count PyStr instBEqOfDecidableEq m l = l.count m := by
  unfold List.count
  congr 1
  funext x
  show (@BEq.beq PyStr instBEqOfDecidableEq x m) = (x == m)
  rw [show (@BEq.beq PyStr instBEqOfDecidableEq x m) = decide (x = m) from rfl,
    beq_eq_decide]
  exact decide_eq_decide.mpr Iff.rfl

theorem sum_map_eq_dedup_count_sum (g : PyStr → ℚ) (l : List PyStr) :
    (l.map g).sum = (l.dedup.map (fun t => (l.count t : ℚ) * g t)).sum := by
  rw [Finset.sum_list_map_count, Finset.sum_list_map_count, list_toFinset_dedup]
  apply Finset.sum_congr rfl
  intro m hm
  have hmem : m ∈ l := List.mem_toFinset.mp hm
  rw [List.count_dedup, if_pos hmem, one_nsmul, count_beq_irrel, nsmul_eq_mul]

/-- C5: every document id appearing in a result of calculate_scores lies in
the document-id set of every query term's posting list (AND semantics);
no document outside the intersection is returned. -/
theorem calculate_scores_and_semantics :
    ∀ iter inverted_index pagerank query_terms weight res r t,
      validIter iter →
      calculate_scores iter inverted_index pagerank query_terms weight = some res →
      r ∈ res → t ∈ query_terms →
      ∃ e, inverted_index t = some e ∧ r.docid ∈ doc_ids e := by
  intro iter inverted_index pagerank query_terms weight res r t hvi h hr ht
  rcases calculate_scores_inv h with rfl | ⟨t0, rest, e0, cands, res0, hq, he0, hint, -, -, hmo, hres⟩
  · cases hr
  · subst hres
    have hr0 : r ∈ res0 := (List.perm_insertionSort _ res0).subset hr
    have hdoc : r.docid ∈ iter cands := by
      have hmap := mapOption_docids (fun d x hx => score_doc_docid hx) hmo
      rw [← hmap]
      exact List.mem_map_of_mem _ hr0
    have hcand : r.docid ∈ cands := (hvi cands).subset hdoc
    subst hq
    rcases List.mem_cons.mp ht with rfl | ht'
    · exact ⟨e0, he0, intersect_terms_subset hint _ hcand⟩
    · obtain ⟨e, he, hsub⟩ := intersect_terms_mem_term hint t ht'
      exact ⟨e, he, hsub _ hcand⟩

/-- C5 witness at the worked example: document 1 is in the posting set of
"cat". -/
theorem calculate_scores_and_semantics_witness :
    ∃ e, demo_index ['c', 'a', 't'] = some e
      ∧ (⟨1, 2/5, 7/5⟩ : ScoredDoc).docid ∈ doc_ids e :=
  calculate_scores_and_semantics id demo_index demo_pagerank
    [['c', 'a', 't'], ['d', 'o', 'g']] 0.5 [⟨1, 2/5, 7/5⟩] ⟨1, 2/5, 7/5⟩
    ['c', 'a', 't'] (fun l => List.Perm.refl l)
    (by with_unfolding_all decide) (by with_unfolding_all decide) (by decide)

/-- C6: the empty query, any query containing a term missing from the
index, and any raw query that is empty or consists only of stopwords all
produce the empty result list. -/
theorem calculate_scores_empty_results :
    (∀ iter inverted_index pagerank weight,
      calculate_scores iter inverted_index pagerank [] weight = some [])
    ∧ (∀ iter inverted_index pagerank query_terms weight t, t ∈ query_terms →
      inverted_index t = none →
      calculate_scores iter inverted_index pagerank query_terms weight = some [])
    ∧ (∀ iter inverted_index pagerank stopwords weight q,
      (∀ u ∈ query_tokens q, u ∈ stopwords) →
      calculate_scores iter inverted_index pagerank (clean_query stopwords q) weight
        = some []) := by
  refine ⟨fun _ _ _ _ => rfl, fun _ _ _ _ _ _ ht hmiss => ?_, fun _ _ _ _ _ _ h => ?_⟩
  · exact calculate_scores_missing_term ht hmiss
  · rw [clean_query_all_stop h]
    rfl

/-- C6 witness: the three cases at concrete inputs (a query with the
unknown term "zz", and the all-stopwords raw query "cat"). -/
theorem calculate_scores_empty_results_witness :
    calculate_scores id demo_index demo_pagerank [] 0.5 = some []
    ∧ calculate_scores id demo_index demo_pagerank [['z', 'z']] 0.5 = some []
    ∧ calculate_scores id demo_index demo_pagerank
        (clean_query [['c', 'a', 't']] "cat".toList) 0.5 = some [] :=
  ⟨calculate_scores_empty_results.1 id demo_index demo_pagerank 0.5,
   calculate_scores_empty_results.2.1 id demo_index demo_pagerank [['z', 'z']] 0.5
     ['z', 'z'] (by decide) (by decide),
   calculate_scores_empty_results.2.2 id demo_index demo_pagerank [['c', 'a', 't']]
     0.5 "cat".toList (by decide)⟩

/-- C3 counterexample: on an index whose only term has idf 0, the query
norm is zero and calculate_scores raises ZeroDivisionError (modelled as
none) instead of guarding the division. -/
theorem calculate_scores_zero_norm_counterexample :
    calculate_scores id zero_idf_index no_pagerank [['z']] 0.5 = none := by
  with_unfolding_all decide

/-- C3 amended: the division by the query norm is not guarded; ranking
raises no exception provided every queried term that is in the index has a
positive idf and postings with nonzero norms (a validated index). -/
theorem calculate_scores_no_exception_amended :
    ∀ iter inverted_index pagerank query_terms weight,
      (∀ t ∈ query_terms, ∀ e, inverted_index t = some e →
        0 < e.idf ∧ ∀ p ∈ e.docs, p.norm_factor ≠ 0) →
      ∃ res, calculate_scores iter inverted_index pagerank query_terms weight
        = some res :=
  fun _ _ _ _ _ hv => calculate_scores_total hv

/-- C3 amended witness: the validated worked example raises no exception. -/
theorem calculate_scores_no_exception_amended_witness :
    ∃ res, calculate_scores id demo_index demo_pagerank
      [['c', 'a', 't'], ['d', 'o', 'g']] 0.5 = some res := by
  apply calculate_scores_no_exception_amended
  intro t ht e he
  fin_cases ht
  · rw [show demo_index ['c', 'a', 't']
        = some (⟨2, [⟨1, 3, 5⟩, ⟨2, 1, 2⟩]⟩ : TermEntry) from rfl] at he
    cases he
    refine ⟨by norm_num, ?_⟩
    intro p hp
    fin_cases hp <;> norm_num
  · rw [show demo_index ['d', 'o', 'g']
        = some (⟨1, [⟨1, 2, 5⟩]⟩ : TermEntry) from rfl] at he
    cases he
    refine ⟨by norm_num, ?_⟩
    intro p hp
    fin_cases hp <;> norm_num

/-- C2 counterexample: for the duplicated query ["aa", "aa"] the norm
accumulated by the code (over occurrences) is 8, while the distinct-terms
Euclidean norm of the claim is 4. -/
theorem query_norm_occurrences_counterexample :
    query_norm_sq tie_index [['a', 'a'], ['a', 'a']] = 8
    ∧ spec_query_norm_sq tie_index [['a', 'a'], ['a', 'a']] = 4
    ∧ query_norm_sq tie_index [['a', 'a'], ['a', 'a']]
      ≠ spec_query_norm_sq tie_index [['a', 'a'], ['a', 'a']] := by
  refine ⟨?_, ?_, ?_⟩ <;> with_unfolding_all decide

/-- C2 amended: each term's unnormalized weight is count times idf as
claimed, but the squared norm is accumulated once per occurrence, so each
distinct term contributes count(t) copies of its squared weight; the
distinct-terms Euclidean norm of the claim is obtained exactly when the
query has no duplicate terms. -/
theorem query_vector_amended :
    ∀ inverted_index query_terms,
      (∀ t ∈ query_terms,
        query_weight inverted_index query_terms t
          = (query_terms.count t : ℚ) * idf_of inverted_index t)
      ∧ query_norm_sq inverted_index query_terms
          = (query_terms.dedup.map (fun t => (query_terms.count t : ℚ) *
              query_weight inverted_index query_terms t ^ 2)).sum
      ∧ (query_terms.Nodup →
          query_norm_sq inverted_index query_terms
            = spec_query_norm_sq inverted_index query_terms) := by
  intro inverted_index query_terms
  refine ⟨fun t _ => rfl, ?_, ?_⟩
  · exact sum_map_eq_dedup_count_sum _ query_terms
  · intro hnd
    unfold query_norm_sq spec_query_norm_sq
    rw [List.dedup_eq_self.mpr hnd]

/-- C2 amended witness at the worked example query. -/
theorem query_vector_amended_witness :
    query_weight demo_index [['c', 'a', 't'], ['d', 'o', 'g']] ['c', 'a', 't']
      = (([['c', 'a', 't'], ['d', 'o', 'g']].count ['c', 'a', 't'] : ℚ))
        * idf_of demo_index ['c', 'a', 't']
    ∧ query_norm_sq demo_index [['c', 'a', 't'], ['d', 'o', 'g']]
      = spec_query_norm_sq demo_index [['c', 'a', 't'], ['d', 'o', 'g']] :=
  ⟨(query_vector_amended demo_index _).1 _ (by decide),
   (query_vector_amended demo_index _).2.2 (by decide)⟩

/-- C9 counterexample: a line with three tokens and no complete document
group whose idf token does not parse as a float makes load_index raise
ValueError (modelled as failed); the term is not stored. -/
theorem load_index_line_idf_error_counterexample :
    load_index_line demo_pyInt demo_pyFloat [['t'], ['x'], ['y']]
      = LineResult.failed := by
  decide

/-- C9 amended: on a line with at least three tokens but no complete
document group, provided the idf token parses as a float, the term is
stored with an empty postings list and the trailing tokens are dropped
without ever being parsed (the int and float parsers are arbitrary for
them); a query containing a term with an empty postings list returns the
empty result sequence for every weight. -/
theorem load_index_line_incomplete_amended :
    (∀ pInt pFloat term idf_tok rest idf, rest ≠ [] → rest.length < 3 →
      pFloat idf_tok = some idf →
      load_index_line pInt pFloat (term :: idf_tok :: rest)
        = LineResult.stored term ⟨idf, []⟩)
    ∧ (∀ iter inverted_index pagerank query_terms weight t idf,
      inverted_index t = some ⟨idf, []⟩ → t ∈ query_terms →
      calculate_scores iter inverted_index pagerank query_terms weight = some []) :=
  ⟨fun pInt pFloat _ _ _ _ h1 h2 h3 => load_index_line_incomplete pInt pFloat h1 h2 h3,
   fun _ _ _ _ _ _ _ hidx ht => calculate_scores_empty_docs hidx ht⟩

/-- C9 amended witness: the line "t 2.0 y" is stored as term t with idf 2
and no postings, and querying the empty-postings term "e" returns []. -/
theorem load_index_line_incomplete_amended_witness :
    load_index_line demo_pyInt demo_pyFloat [['t'], ['2', '.', '0'], ['y']]
      = LineResult.stored ['t'] ⟨2, []⟩
    ∧ calculate_scores id empty_docs_index no_pagerank [['e']] 0.5 = some [] :=
  ⟨load_index_line_incomplete_amended.1 demo_pyInt demo_pyFloat ['t'] ['2', '.', '0']
     [['y']] 2 (by decide) (by decide) (by decide),
   load_index_line_incomplete_amended.2 id empty_docs_index no_pagerank [['e']] 0.5
     ['e'] 3 (by decide) (by decide)⟩

/-- C8: a missing weight parameter, or one on which float() raises
ValueError, makes get_hits process the query with the default weight 0.5
rather than erroring. -/
theorem get_hits_weight_default :
    (∀ iter inverted_index pagerank stopwords pyFloat q_arg,
      get_hits iter inverted_index pagerank stopwords pyFloat q_arg none
        = calculate_scores iter inverted_index pagerank
            (clean_query stopwords (q_arg.getD [])) 0.5)
    ∧ (∀ iter inverted_index pagerank stopwords pyFloat q_arg s,
      pyFloat s = none →
      get_hits iter inverted_index pagerank stopwords pyFloat q_arg (some s)
        = calculate_scores iter inverted_index pagerank
            (clean_query stopwords (q_arg.getD [])) 0.5) := by
  constructor
  · intro iter inverted_index pagerank stopwords pyFloat q_arg
    rfl
  · intro iter inverted_index pagerank stopwords pyFloat q_arg s h
    unfold get_hits
    simp only [get_weight, h]
    rfl

/-- C8 witness: the weight string "x" does not parse, so the demo query is
ranked with weight 0.5. -/
theorem get_hits_weight_default_witness :
    get_hits id demo_index demo_pagerank [] demo_pyFloat
        (some "Cat Dog!".toList) (some ['x'])
      = calculate_scores id demo_index demo_pagerank
          (clean_query [] ((some "Cat Dog!".toList).getD [])) 0.5 :=
  get_hits_weight_default.2 id demo_index demo_pagerank [] demo_pyFloat
    (some "Cat Dog!".toList) ['x'] (by decide)

/-- C1 counterexample: the sort has no docid tie-break key, so with the set
iteration order that CPython actually produces for the candidate set
containing 1 and 8 (slot order gives 8 before 1), two documents with equal
scores come out in descending docid order.  List.reverse is a valid
enumeration of the candidate set. -/
theorem calculate_scores_tiebreak_counterexample :
    validIter List.reverse
    ∧ calculate_scores List.reverse tie_index no_pagerank [['a', 'a']] 0
      = some [⟨8, 0, 1⟩, ⟨1, 0, 1⟩]
    ∧ ¬ ([⟨8, 0, 1⟩, ⟨1, 0, 1⟩] : List ScoredDoc).Pairwise
        (resOrd (query_norm_sq tie_index [['a', 'a']])) := by
  refine ⟨fun l => List.reverse_perm l, by with_unfolding_all decide, ?_⟩
  intro hp
  have h8 := (List.pairwise_cons.mp hp).1 ⟨1, 0, 1⟩ (List.mem_cons_self _ _)
  have hS : query_norm_sq tie_index [['a', 'a']] = 1 := by with_unfolding_all decide
  rw [hS] at h8
  have heq : scoreVal 1 (⟨8, 0, 1⟩ : ScoredDoc) = scoreVal 1 (⟨1, 0, 1⟩ : ScoredDoc) := rfl
  have hlt := h8.2 heq
  norm_num at hlt

/-- C1 amended: for every iteration order the results are sorted by
nonincreasing real score; when the candidate set is iterated in ascending
order (the canonical enumeration, id) the stable sort moreover leaves equal
scores in ascending document-id order. -/
theorem calculate_scores_sorted_amended :
    (∀ iter inverted_index pagerank query_terms weight res,
      calculate_scores iter inverted_index pagerank query_terms weight = some res →
      res.Pairwise (fun x y => scoreVal (query_norm_sq inverted_index query_terms) y
        ≤ scoreVal (query_norm_sq inverted_index query_terms) x))
    ∧ (∀ inverted_index pagerank query_terms weight res,
      calculate_scores id inverted_index pagerank query_terms weight = some res →
      res.Pairwise (resOrd (query_norm_sq inverted_index query_terms))) := by
  constructor
  · intro iter inverted_index pagerank query_terms weight res h
    rcases calculate_scores_inv h with rfl |
      ⟨t0, rest, e0, cands, res0, hq, he0, hint, -, -, hmo, hres⟩
    · exact List.Pairwise.nil
    · subst hq
      subst hres
      exact pairwise_score_le_sort _ _
  · intro inverted_index pagerank query_terms weight res h
    rcases calculate_scores_inv h with rfl |
      ⟨t0, rest, e0, cands, res0, hq, he0, hint, -, -, hmo, hres⟩
    · exact List.Pairwise.nil
    · subst hq
      subst hres
      apply pairwise_resOrd_sort
      have hcands : cands.Pairwise (· < ·) :=
        intersect_terms_sorted
          (show (doc_ids e0).Pairwise (· < ·) from pySet_sorted _) hint
      have hmap := mapOption_docids (fun d x hx => score_doc_docid hx) hmo
      rw [show id cands = cands from rfl] at hmap
      have hp : (res0.map ScoredDoc.docid).Pairwise (· < ·) := hmap ▸ hcands
      exact List.pairwise_map.mp hp

/-- C1 amended witness at the worked example. -/
theorem calculate_scores_sorted_amended_witness :
    ([⟨1, 2/5, 7/5⟩] : List ScoredDoc).Pairwise (fun x y =>
      scoreVal (query_norm_sq demo_index [['c', 'a', 't'], ['d', 'o', 'g']]) y
        ≤ scoreVal (query_norm_sq demo_index [['c', 'a', 't'], ['d', 'o', 'g']]) x)
    ∧ ([⟨1, 2/5, 7/5⟩] : List ScoredDoc).Pairwise
        (resOrd (query_norm_sq demo_index [['c', 'a', 't'], ['d', 'o', 'g']])) :=
  ⟨calculate_scores_sorted_amended.1 id demo_index demo_pagerank
      [['c', 'a', 't'], ['d', 'o', 'g']] 0.5 [⟨1, 2/5, 7/5⟩]
      (by with_unfolding_all decide),
   calculate_scores_sorted_amended.2 demo_index demo_pagerank
      [['c', 'a', 't'], ['d', 'o', 'g']] 0.5 [⟨1, 2/5, 7/5⟩]
      (by with_unfolding_all decide)⟩

/-- C4: the spec's worked example, computed exactly: cleaning "Cat Dog!"
gives [cat, dog]; the only result is document 1; its stored score has
pagerank part 0.5*0.8 and tf-idf part 0.5*(2.4+0.4) over norm sqrt 5, so
its real value is 0.5*0.8 + 0.5*(2.4+0.4)/sqrt 5, within 1/1000 of
1.0261. -/
theorem worked_example_exact :
    clean_query [] "Cat Dog!".toList = [['c', 'a', 't'], ['d', 'o', 'g']]
    ∧ (∀ iter, validIter iter →
        calculate_scores iter demo_index demo_pagerank
          [['c', 'a', 't'], ['d', 'o', 'g']] 0.5 = some [⟨1, 2/5, 7/5⟩])
    ∧ query_norm_sq demo_index [['c', 'a', 't'], ['d', 'o', 'g']] = 5
    ∧ scoreVal 5 ⟨1, 2/5, 7/5⟩
      = (0.5 : ℝ) * 0.8 + 0.5 * ((2.4 + 0.4) / Real.sqrt 5)
    ∧ |scoreVal 5 ⟨1, 2/5, 7/5⟩ - 1.0261| < 1/1000 := by
  have hl : (2.236 : ℝ) ≤ Real.sqrt 5 :=
    (Real.le_sqrt (by norm_num) (by norm_num)).mpr (by norm_num)
  have hu : Real.sqrt 5 ≤ 2.2361 := by
    have h := Real.sqrt_le_sqrt (show (5 : ℝ) ≤ 2.2361 ^ 2 by norm_num)
    rwa [Real.sqrt_sq (by norm_num : (0 : ℝ) ≤ 2.2361)] at h
  have hs0 : (0 : ℝ) < Real.sqrt 5 := lt_of_lt_of_le (by norm_num) hl
  have hrun : ∀ iter, validIter iter →
      calculate_scores iter demo_index demo_pagerank
        [['c', 'a', 't'], ['d', 'o', 'g']] 0.5 = some [⟨1, 2/5, 7/5⟩] := by
    intro iter hvi
    have hiter : iter [1] = [1] := List.perm_singleton.mp (hvi [1])
    simp only [calculate_scores,
      show demo_index ['c', 'a', 't']
          = some (⟨2, [⟨1, 3, 5⟩, ⟨2, 1, 2⟩]⟩ : TermEntry) from rfl,
      show intersect_terms demo_index [['d', 'o', 'g']]
          (doc_ids (⟨2, [⟨1, 3, 5⟩, ⟨2, 1, 2⟩]⟩ : TermEntry)) = some [1] from by
        with_unfolding_all decide,
      hiter,
      show mapOption (score_doc demo_index demo_pagerank
          [['c', 'a', 't'], ['d', 'o', 'g']] 0.5) [1] = some [⟨1, 2/5, 7/5⟩] from by
        with_unfolding_all decide]
    rw [if_neg (show ¬ ([1] : List ℤ) = [] by decide),
      if_neg (show ¬ query_norm_sq demo_index [['c', 'a', 't'], ['d', 'o', 'g']] = 0
        from by with_unfolding_all decide)]
    rfl
  refine ⟨by decide, hrun, by with_unfolding_all decide, ?_, ?_⟩
  · unfold scoreVal
    push_cast
    ring_nf
  · unfold scoreVal
    push_cast
    rw [abs_lt]
    constructor
    · have hb : (0.6251 : ℝ) < (7 / 5) / Real.sqrt 5 := by
        rw [lt_div_iff hs0]
        nlinarith
      linarith
    · have hb : (7 / 5 : ℝ) / Real.sqrt 5 < 0.6271 := by
        rw [div_lt_iff hs0]
        nlinarith
      linarith

/-- C4 witness: the run at the canonical (ascending) iteration order. -/
theorem worked_example_exact_witness :
    calculate_scores id demo_index demo_pagerank
      [['c', 'a', 't'], ['d', 'o', 'g']] 0.5 = some [⟨1, 2/5, 7/5⟩] :=
  worked_example_exact.2.1 id (fun l => List.Perm.refl l)

/-- C7: clean_query is deterministic, and cleaning the space-join of its
own output returns the same term sequence (idempotence on normalized
input). -/
theorem clean_query_deterministic_idempotent :
    ∀ stopwords q,
      clean_query stopwords q = clean_query stopwords q
      ∧ clean_query stopwords (joinWords (clean_query stopwords q))
        = clean_query stopwords q :=
  fun stopwords q => ⟨rfl, clean_query_join_fix stopwords q⟩

/-- C10: every produced query term is nonempty, made of lowercase ASCII
letters and digits only, and is not a stopword. -/
theorem clean_query_terms_wellformed :
    ∀ stopwords q t, t ∈ clean_query stopwords q →
      t ≠ [] ∧ (∀ c ∈ t, lowerAlnum c) ∧ t ∉ stopwords :=
  fun _ _ _ ht => mem_clean_query ht

/-- C10 witness: the term "cat" produced from "Cat Dog!" is well formed. -/
theorem clean_query_terms_wellformed_witness :
    ['c', 'a', 't'] ≠ []
    ∧ (∀ c ∈ ['c', 'a', 't'], lowerAlnum c)
    ∧ ['c', 'a', 't'] ∉ ([] : List PyStr) :=
  clean_query_terms_wellformed [] "Cat Dog!".toList ['c', 'a', 't'] (by decide)

end IndexServer
